import Mathlib

/-!
Shallow embedding of the SteamToNotion resolution-and-estimation core
(`src/utils.py`, `src/steam_api.py`, `src/rawg_api.py`).

Conventions of the embedding:
* Python strings are Lean `String` / `List Char`; `str.lower` is modelled on
  the ASCII range (every input in the claims is ASCII).
* Python floats are modelled as exact rationals `ℚ`; Python's `round(x, 1)`
  is round-half-to-even on the tenths grid, as `round` is documented to do.
* Network responses are passed in as explicit values: a catalog response is
  an `Option` (with `none` for a malformed / non-JSON payload), and the
  RAWG network layer is an oracle function from the query string to the
  parsed response.  The process-wide RAWG cache is explicit state.
* `difflib.SequenceMatcher.ratio` (used by `utils.similarity`) is modelled
  by its documented algorithm: repeatedly take the longest matching block
  (maximal length, then earliest start in `a`, then earliest start in `b`),
  recurse on both remainders, and return `2*M / (len a + len b)` where `M`
  is the total matched length.  The autojunk heuristic only fires on
  sequences of 200+ characters and is not modelled.
-/

set_option maxRecDepth 8000

namespace STN

/-! ### Character and string helpers -/

/-- Python `str.lower`, ASCII range, as a character list. -/
def lowerStr (s : String) : List Char := s.data.map Char.toLower

/-- Python whitespace characters (`str.strip` / `\s`), ASCII range. -/
def pySpace (c : Char) : Bool :=
  c = ' ' || c = '\t' || c = '\n' || c = '\r' || c = '\x0b' || c = '\x0c'

/-- Python `\w` word characters, ASCII range: alphanumerics and underscore. -/
def wordChar (c : Char) : Bool := c.isAlphanum || c = '_'

/-- Python `str.strip`: drop leading and trailing whitespace. -/
def pyStrip (l : List Char) : List Char :=
  ((l.dropWhile pySpace).reverse.dropWhile pySpace).reverse

/-- Python `re.sub(r"\s+", " ", ·)`: collapse each maximal whitespace run
to a single space. -/
def collapseWs : List Char → List Char
  | [] => []
  | [c] => if pySpace c then [' '] else [c]
  | c :: c' :: cs =>
    if pySpace c && pySpace c' then collapseWs (c' :: cs)
    else (if pySpace c then ' ' else c) :: collapseWs (c' :: cs)

/-- Characters kept by `utils.normalize`: the class `[a-z0-9 ]`. -/
def keepNorm (c : Char) : Bool :=
  (('a' ≤ c && c ≤ 'z') || ('0' ≤ c && c ≤ '9') || c = ' ')

/-- `utils.normalize`: lower-case, drop everything outside `[a-z0-9 ]`, strip. -/
def normalize (text : String) : String :=
  ⟨pyStrip ((lowerStr text).filter keepNorm)⟩

/-- `utils.sanitize_title`: lower-case, turn `:` into a space, drop
punctuation (non-`\w`, non-`\s`), collapse whitespace runs, strip. -/
def sanitize_title (title : String) : String :=
  ⟨pyStrip (collapseWs
    (((lowerStr title).map fun c => if c = ':' then ' ' else c).filter
      fun c => wordChar c || pySpace c))⟩

/-- Python's substring test `needle in hay` on strings. -/
def substrB (needle : List Char) : List Char → Bool
  | [] => needle.isEmpty
  | c :: t => needle.isPrefixOf (c :: t) || substrB needle t

/-! ### Similarity scorer (`difflib.SequenceMatcher.ratio`) -/

/-- Length of the longest common prefix of two character lists. -/
def commonRun : List Char → List Char → ℕ
  | a :: as, b :: bs => if a = b then commonRun as bs + 1 else 0
  | _, _ => 0

/-- A matching block: start in `a`, start in `b`, length. -/
structure Block where
  i : ℕ
  j : ℕ
  k : ℕ
deriving DecidableEq, Repr

/-- Length of the matching run starting at positions `(i, j)`. -/
def runLen (a b : List Char) (i j : ℕ) : ℕ := commonRun (a.drop i) (b.drop j)

/-- Every start position, in lexicographic order, with its run length. -/
def blockCandidates (a b : List Char) : List Block :=
  (List.range a.length).flatMap fun i =>
    (List.range b.length).map fun j => ⟨i, j, runLen a b i j⟩

/-- Keep the strictly larger block; ties keep the earlier one. -/
def maxStep (best c : Block) : Block := if best.k < c.k then c else best

/-- `SequenceMatcher.find_longest_match`: the matching block of maximal
length, earliest in `a`, then earliest in `b`; `⟨0,0,0⟩` if none. -/
def chooseBlock (a b : List Char) : Block :=
  (blockCandidates a b).foldl maxStep ⟨0, 0, 0⟩

/-- Total size of all matching blocks: take the longest block and recurse on
both remainders.  `fuel` bounds the recursion depth; `a.length` suffices. -/
def matchTotal : ℕ → List Char → List Char → ℕ
  | 0, _, _ => 0
  | fuel + 1, a, b =>
    let bl := chooseBlock a b
    if bl.k = 0 then 0
    else
      matchTotal fuel (a.take bl.i) (b.take bl.j) + bl.k +
        matchTotal fuel (a.drop (bl.i + bl.k)) (b.drop (bl.j + bl.k))

/-- `SequenceMatcher.ratio`: `2*M / (len a + len b)`, and `1.0` when both
inputs are empty. -/
def simRatio (a b : List Char) : ℚ :=
  if a.length + b.length = 0 then 1
  else 2 * (matchTotal a.length a b : ℚ) / (a.length + b.length)

/-- `utils.similarity`: lower-case both inputs, then the matcher ratio. -/
def similarity (a b : String) : ℚ := simRatio (lowerStr a) (lowerStr b)

/-! ### Sequel detector (`utils.is_sequel`) -/

/-- The roman-numeral alternatives of the first regex, `ii|iii|iv|v`. -/
def romanTokens : List (List Char) :=
  [['i', 'i'], ['i', 'i', 'i'], ['i', 'v'], ['v']]

/-- The digit alternatives of the second regex, `[1-9]|10`. -/
def digitTokens : List (List Char) :=
  [['1'], ['2'], ['3'], ['4'], ['5'], ['6'], ['7'], ['8'], ['9'], ['1', '0']]

/-- Does token `w` occur at position `i` of `s` with a word boundary on each
side?  Out-of-range neighbours read as `' '`, a non-word character. -/
def tokenAtB (s : List Char) (i : ℕ) (w : List Char) : Bool :=
  w.isPrefixOf (s.drop i)
    && (i = 0 || !wordChar (s.getD (i - 1) ' '))
    && (decide (s.length ≤ i + w.length) || !wordChar (s.getD (i + w.length) ' '))

/-- `utils.is_sequel`: lower-case the title, then search for a whole-word
roman numeral `ii|iii|iv|v`, or a whole-word `[1-9]|10` not immediately
followed by a digit. -/
def is_sequel (title : String) : Bool :=
  let s := lowerStr title
  ((List.range (s.length + 1)).any fun i => romanTokens.any fun w => tokenAtB s i w)
    || ((List.range (s.length + 1)).any fun i => digitTokens.any fun w =>
          tokenAtB s i w && !(s.getD (i + w.length) ' ').isDigit)

/-- Claim-side reading: `w` occurs whole-word at position `i` of `s`. -/
def WholeWordAt (s : List Char) (i : ℕ) (w : List Char) : Prop :=
  w <+: s.drop i
    ∧ (i = 0 ∨ wordChar (s.getD (i - 1) ' ') = false)
    ∧ (s.length ≤ i + w.length ∨ wordChar (s.getD (i + w.length) ' ') = false)

/-- Claim-side reading: the (lower-cased) title contains a whole-word roman
numeral among `ii`, `iii`, `iv`, `v`. -/
def RomanSequel (title : String) : Prop :=
  ∃ w ∈ romanTokens, ∃ i, WholeWordAt (lowerStr title) i w

/-- Claim-side reading: the (lower-cased) title contains a whole-word
standalone integer in `1..10`, not immediately followed by another digit. -/
def NumberSequel (title : String) : Prop :=
  ∃ n : ℕ, 1 ≤ n ∧ n ≤ 10 ∧
    ∃ i, WholeWordAt (lowerStr title) i (Nat.repr n).data ∧
      ((lowerStr title).getD (i + (Nat.repr n).data.length) ' ').isDigit = false

/-! ### Catalog-A resolver (`steam_api.search_app_id_by_name`) -/

/-- One row of a Steam search response: `{"name": ..., "appid": ...}`. -/
structure Candidate where
  name : String
  appid : ℤ
deriving DecidableEq, Repr

/-- Rule 1 test: `c["name"].lower() == name.lower()`. -/
def exactPred (name : String) (c : Candidate) : Bool :=
  lowerStr c.name == lowerStr name

/-- Rule 2 test: `normalize(c["name"]).startswith(name_norm)`. -/
def startsPred (nameNorm : String) (c : Candidate) : Bool :=
  nameNorm.data.isPrefixOf (normalize c.name).data

/-- Rule 3 filter: drop unwanted sequels, keep candidates whose normalized
name contains the normalized query or vice versa. -/
def filterPred (name : String) (nameNorm : String) (c : Candidate) : Bool :=
  (!(is_sequel c.name) || is_sequel name)
    && (substrB nameNorm.data (normalize c.name).data
        || substrB (normalize c.name).data nameNorm.data)

/-- The `best_score` / best-value loop: start from `(0, None)` and take each
element whose score strictly beats the best so far. -/
def pickBest {α : Type} (score : α → ℚ) (l : List α) : ℚ × Option α :=
  l.foldl (fun acc x => if acc.1 < score x then (score x, some x) else acc)
    ((0 : ℚ), none)

/-- `steam_api.search_app_id_by_name`, over an already-fetched response.
`none` stands for a payload `res.json()` raised on; the loop state
`(best_score, best_app_id)` is carried as the best-scoring candidate, whose
`appid` is taken at the end. -/
def search_app_id_by_name (name : String) (resp : Option (List Candidate)) :
    Option ℤ :=
  match resp with
  | none => none
  | some candidates =>
    if candidates.isEmpty then none
    else
      let nameNorm := normalize name
      match candidates.find? (exactPred name) with
      | some c => some c.appid
      | none =>
        match candidates.find? (startsPred nameNorm) with
        | some c => some c.appid
        | none =>
          let filtered := candidates.filter (filterPred name nameNorm)
          let filtered := if filtered.isEmpty then candidates else filtered
          let best := pickBest (fun c => similarity nameNorm (normalize c.name)) filtered
          if best.1 < 3 / 10 then none else best.2.map (·.appid)

/-! ### Catalog-B resolver (`rawg_api`) -/

/-- One RAWG result row, after field extraction guards: `name` defaults to
the empty string, genre/tag entries are already reduced to their names. -/
structure RawgGame where
  name : String
  playtime : Option ℤ
  genres : List String
  tags : List String
deriving DecidableEq, Repr

/-- An enrichment record `(playtime, genres, tags)`. -/
abbrev Record := Option ℤ × List String × List String

/-- `rawg_api.extract_rawg_fields`. -/
def extract_rawg_fields (g : RawgGame) : Record := (g.playtime, g.genres, g.tags)

/-- `rawg_api.best_rawg_match`: best similarity against the normalized
original name, accepted only at score `≥ 0.45`. -/
def best_rawg_match (results : List RawgGame) (originalName : String) :
    Option RawgGame :=
  let originalNorm := normalize originalName
  let best := pickBest (fun g => similarity originalNorm (normalize g.name)) results
  if 45 / 100 ≤ best.1 then best.2 else none

/-- The network layer: a parsed RAWG response per query string, `none` when
`query_rawg` gave up (malformed / no `results` list). -/
abbrev Oracle := String → Option (List RawgGame)

/-- The process-wide cache `RAWG_CACHE`, as explicit state. -/
abbrev Cache := List (String × Record)

/-- The character of a decimal digit. -/
def digitCh (d : ℕ) : Char := Char.ofNat (48 + d)

/-- Decimal digits of `n`, most significant first. -/
def natStr (n : ℕ) : List Char :=
  if n = 0 then ['0']
  else ((Nat.digits 10 n).map digitCh).reverse

/-- Python `str` of an `int`. -/
def intStr (n : ℤ) : List Char :=
  if n < 0 then '-' :: natStr n.natAbs else natStr n.toNat

/-- Python `str` of an `Optional[int]`: digits, or the text `None`. -/
def idStr : Option ℤ → List Char
  | some n => intStr n
  | none => ['N', 'o', 'n', 'e']

/-- The composite cache key `f"{game_name}|{steam_app_id}"`. -/
def cacheKey (gameName : String) (steamAppId : Option ℤ) : String :=
  gameName ++ "|" ++ ⟨idStr steamAppId⟩

/-- The four query strategies, in order: raw title; sanitized title when it
differs; hyphenated slug; `steam <id>` when the identifier is truthy. -/
def strategiesFor (gameName : String) (steamAppId : Option ℤ) : List String :=
  let cleaned := sanitize_title gameName
  [gameName]
    ++ (if cleaned ≠ gameName then [cleaned] else [])
    ++ [⟨cleaned.data.map fun c => if c = ' ' then '-' else c⟩]
    ++ (match steamAppId with
        | some n => if n ≠ 0 then ["steam " ++ ⟨intStr n⟩] else []
        | none => [])

/-- Run the strategies in order; return the first accepted record together
with the list of queries actually issued. -/
def tryStrategies (oracle : Oracle) (origName : String) :
    List String → Option Record × List String
  | [] => (none, [])
  | q :: rest =>
    match oracle q with
    | some results =>
      if results.isEmpty then
        let (r, qs) := tryStrategies oracle origName rest
        (r, q :: qs)
      else
        match best_rawg_match results origName with
        | some g => (some (extract_rawg_fields g), [q])
        | none =>
          let (r, qs) := tryStrategies oracle origName rest
          (r, q :: qs)
    | none =>
      let (r, qs) := tryStrategies oracle origName rest
      (r, q :: qs)

/-- `rawg_api.get_rawg_data`: cache lookup, then the strategy cascade; only
a success populates the cache.  Returns the record, the updated cache, and
the queries issued. -/
def get_rawg_data (oracle : Oracle) (cache : Cache) (gameName : String)
    (steamAppId : Option ℤ) : Record × Cache × List String :=
  let key := cacheKey gameName steamAppId
  match cache.lookup key with
  | some r => (r, cache, [])
  | none =>
    match tryStrategies oracle gameName (strategiesFor gameName steamAppId) with
    | (some r, qs) => (r, (key, r) :: cache, qs)
    | (none, qs) => ((none, [], []), cache, qs)

/-- Does strategy `q` produce an accepted match under `oracle`? -/
def strategyHit (oracle : Oracle) (origName q : String) : Bool :=
  match oracle q with
  | some results => !results.isEmpty && (best_rawg_match results origName).isSome
  | none => false

/-! ### Duration estimator (`rawg_api.estimate_hltb_from_rawg`) -/

/-- Python `round` to an integer: round half to even. -/
def pyRoundInt (x : ℚ) : ℤ :=
  let n := ⌊x⌋
  let r := x - n
  if r < 1 / 2 then n
  else if 1 / 2 < r then n + 1
  else if n % 2 = 0 then n else n + 1

/-- Python `round(x, 1)`: round half to even on the tenths grid. -/
def round1 (x : ℚ) : ℚ := (pyRoundInt (10 * x) : ℚ) / 10

/-- The genre-based base ratio chain of `estimate_hltb_from_rawg` (the
sequential `elif` reassignments of `ratio`, starting from the default 2.5). -/
def genreRatio (gs : List String) : ℚ :=
  if gs.contains "rpg" || gs.contains "role-playing" then 5
  else if gs.contains "strategy" then 3
  else if gs.contains "adventure" then 5 / 2
  else if gs.contains "action" then 11 / 5
  else if gs.contains "indie" then 9 / 5
  else if gs.contains "platformer" then 3 / 2
  else if gs.contains "roguelike" then 5 / 2
  else 5 / 2

/-- The tag multiplier step (`ratio *= 3.5` or `ratio *= 1.2`). -/
def tagAdjust (gs ts : List String) : ℚ :=
  if ts.contains "open world" || ts.contains "sandbox" || ts.contains "crafting" ||
      ts.contains "exploration" || ts.contains "base building" then
    genreRatio gs * (7 / 2)
  else if ts.contains "survival" || ts.contains "horror" then
    genreRatio gs * (6 / 5)
  else genreRatio gs

/-- The simulation floor step (`ratio = max(ratio, 3.5)`). -/
def simFloor (gs ts : List String) : ℚ :=
  if gs.contains "simulation" then max (tagAdjust gs ts) (7 / 2) else tagAdjust gs ts

/-- The automation/factory/management floor step (`ratio = max(ratio, 4.0)`),
yielding the final ratio applied to the playtime. -/
def hltbRatio (gs ts : List String) : ℚ :=
  if ts.contains "automation" || ts.contains "factory" || ts.contains "management" then
    max (simFloor gs ts) 4
  else simFloor gs ts

/-- `rawg_api.estimate_hltb_from_rawg`.  Ratios are the exact values of the
source's float literals: `1.2 = 6/5`, `2.2 = 11/5`, etc.; the sequential
reassignments of `ratio` are staged through `genreRatio`, `tagAdjust`,
`simFloor` and `hltbRatio`. -/
def estimate_hltb_from_rawg (rawg_playtime : Option ℤ) (genres tags : List String) :
    Option ℚ :=
  match rawg_playtime with
  | none => none
  | some p =>
    if p ≤ 0 then none
    else
      let gs := genres.map fun g => (⟨lowerStr g⟩ : String)
      let ts := tags.map fun t => (⟨lowerStr t⟩ : String)
      if p ≤ 2 then some (round1 (p * (6 / 5)))
      else if p ≤ 3 then some (round1 (p * (3 / 2)))
      else if p ≤ 5 then some (round1 (p * 2))
      else some (round1 (p * hltbRatio gs ts))

/-! ### Concrete oracles used by the witnesses -/

/-- An oracle on which every query fails. -/
def failOracle : Oracle := fun _ => none

/-- A RAWG row used by the witnesses. -/
def hadesGame : RawgGame := ⟨"hades", some 7, ["RPG"], []⟩

/-- An oracle that answers only the query `"hades"`. -/
def hitOracle : Oracle := fun q => if q = "hades" then some [hadesGame] else none

/-! ## Lemmas about the similarity scorer -/

theorem commonRun_le_left (a : List Char) : ∀ b, commonRun a b ≤ a.length := by
  induction a with
  | nil => intro b; cases b <;> simp [commonRun]
  | cons x xs ih =>
    intro b
    cases b with
    | nil => simp [commonRun]
    | cons y ys =>
      simp only [commonRun, List.length_cons]
      split
      · exact Nat.succ_le_succ (ih ys)
      · simp

theorem commonRun_le_right (a : List Char) : ∀ b, commonRun a b ≤ b.length := by
  induction a with
  | nil => intro b; cases b <;> simp [commonRun]
  | cons x xs ih =>
    intro b
    cases b with
    | nil => simp [commonRun]
    | cons y ys =>
      simp only [commonRun, List.length_cons]
      split
      · exact Nat.succ_le_succ (ih ys)
      · simp

theorem commonRun_self (a : List Char) : commonRun a a = a.length := by
  induction a with
  | nil => simp [commonRun]
  | cons x xs ih => simp [commonRun, ih]

theorem commonRun_disjoint {a b : List Char} (h : ∀ c ∈ a, c ∉ b) :
    commonRun a b = 0 := by
  cases a with
  | nil => cases b <;> simp [commonRun]
  | cons x xs =>
    cases b with
    | nil => simp [commonRun]
    | cons y ys =>
      have hxy : x ≠ y := by
        intro he
        exact h x (by simp) (by simp [he])
      simp [commonRun, hxy]

theorem runLen_le_left (a b : List Char) (i j : ℕ) :
    runLen a b i j ≤ a.length - i := by
  simpa using (commonRun_le_left (a.drop i) (b.drop j)).trans_eq (List.length_drop i a)

theorem runLen_le_right (a b : List Char) (i j : ℕ) :
    runLen a b i j ≤ b.length - j := by
  simpa using (commonRun_le_right (a.drop i) (b.drop j)).trans_eq (List.length_drop j b)

theorem mem_blockCandidates {a b : List Char} {c : Block} :
    c ∈ blockCandidates a b ↔
      ∃ i j, i < a.length ∧ j < b.length ∧ c = ⟨i, j, runLen a b i j⟩ := by
  simp only [blockCandidates, List.mem_flatMap, List.mem_map, List.mem_range]
  constructor
  · rintro ⟨i, hi, j, hj, rfl⟩
    exact ⟨i, j, hi, hj, rfl⟩
  · rintro ⟨i, j, hi, hj, rfl⟩
    exact ⟨i, hi, j, hj, rfl⟩

theorem foldl_maxStep_eq_of_le :
    ∀ (l : List Block) (best : Block), (∀ c ∈ l, c.k ≤ best.k) →
      l.foldl maxStep best = best := by
  intro l
  induction l with
  | nil => intro best _; rfl
  | cons c t ih =>
    intro best h
    have hc : ¬ best.k < c.k := Nat.not_lt.mpr (h c (by simp))
    rw [List.foldl_cons, show maxStep best c = best from if_neg hc]
    exact ih best fun d hd => h d (by simp [hd])

theorem foldl_maxStep_mem :
    ∀ (l : List Block) (best : Block),
      l.foldl maxStep best = best ∨ l.foldl maxStep best ∈ l := by
  intro l
  induction l with
  | nil => intro best; left; rfl
  | cons c t ih =>
    intro best
    rw [List.foldl_cons]
    rcases ih (maxStep best c) with h | h
    · rw [h]
      unfold maxStep
      split
      · right; simp
      · left; rfl
    · right; simp [h]

theorem foldl_maxStep_cons_dominant {c : Block} {t : List Block} {init : Block}
    (h1 : init.k < c.k) (h2 : ∀ d ∈ t, d.k ≤ c.k) :
    (c :: t).foldl maxStep init = c := by
  rw [List.foldl_cons, show maxStep init c = c from if_pos h1]
  exact foldl_maxStep_eq_of_le t c h2

theorem chooseBlock_valid {a b : List Char} (h : (chooseBlock a b).k ≠ 0) :
    (chooseBlock a b).i + (chooseBlock a b).k ≤ a.length ∧
      (chooseBlock a b).j + (chooseBlock a b).k ≤ b.length ∧
      (chooseBlock a b).i < a.length := by
  rcases foldl_maxStep_mem (blockCandidates a b) ⟨0, 0, 0⟩ with h0 | hm
  · rw [show chooseBlock a b = (blockCandidates a b).foldl maxStep ⟨0, 0, 0⟩ from rfl,
      h0] at h
    simp at h
  · rcases mem_blockCandidates.mp hm with ⟨i, j, hi, hj, he⟩
    have hl := runLen_le_left a b i j
    have hr := runLen_le_right a b i j
    rw [show chooseBlock a b = (blockCandidates a b).foldl maxStep ⟨0, 0, 0⟩ from rfl,
      he]
    dsimp only
    exact ⟨by omega, by omega, hi⟩

theorem matchTotal_le :
    ∀ (fuel : ℕ) (a b : List Char),
      matchTotal fuel a b ≤ a.length ∧ matchTotal fuel a b ≤ b.length := by
  intro fuel
  induction fuel with
  | zero => intro a b; simp [matchTotal]
  | succ n ih =>
    intro a b
    rw [matchTotal]
    by_cases hk : (chooseBlock a b).k = 0
    · simp [hk]
    · simp only [hk, if_false]
      obtain ⟨h1, h2⟩ := ih (a.take (chooseBlock a b).i) (b.take (chooseBlock a b).j)
      obtain ⟨h3, h4⟩ := ih (a.drop ((chooseBlock a b).i + (chooseBlock a b).k))
        (b.drop ((chooseBlock a b).j + (chooseBlock a b).k))
      obtain ⟨v1, v2, v3⟩ := chooseBlock_valid hk
      simp only [List.length_take, List.length_drop] at h1 h2 h3 h4
      constructor <;> omega

theorem foldl_maxStep_init_le :
    ∀ (l : List Block) (init : Block), init.k ≤ (l.foldl maxStep init).k := by
  intro l
  induction l with
  | nil => intro init; exact le_refl _
  | cons c t ih =>
    intro init
    rw [List.foldl_cons]
    refine le_trans ?_ (ih (maxStep init c))
    unfold maxStep
    split
    · omega
    · exact le_refl _

theorem foldl_maxStep_k_ge :
    ∀ (l : List Block) (init d : Block), d ∈ l → d.k ≤ (l.foldl maxStep init).k := by
  intro l
  induction l with
  | nil => intro _ _ hd; simp at hd
  | cons c t ih =>
    intro init d hd
    rw [List.foldl_cons]
    rcases List.mem_cons.mp hd with heq | hd
    · subst heq
      refine le_trans ?_ (foldl_maxStep_init_le t (maxStep init d))
      unfold maxStep
      split
      · exact le_refl _
      · omega
    · exact ih (maxStep init c) d hd

theorem chooseBlock_self {a : List Char} (h : a ≠ []) :
    chooseBlock a a = ⟨0, 0, a.length⟩ := by
  have hpos : 0 < a.length := List.length_pos.mpr h
  have hrun : runLen a a 0 0 = a.length := by
    simp [runLen, commonRun_self]
  have hmem : (⟨0, 0, a.length⟩ : Block) ∈ blockCandidates a a := by
    rw [mem_blockCandidates]
    exact ⟨0, 0, hpos, hpos, by rw [hrun]⟩
  have hub : ∀ d ∈ blockCandidates a a, d.k ≤ a.length := by
    intro d hd
    rcases mem_blockCandidates.mp hd with ⟨i, j, _, _, rfl⟩
    have := runLen_le_left a a i j
    dsimp only
    omega
  have hk : (chooseBlock a a).k = a.length := by
    have hge : a.length ≤ (chooseBlock a a).k :=
      foldl_maxStep_k_ge (blockCandidates a a) ⟨0, 0, 0⟩ ⟨0, 0, a.length⟩ hmem
    have hle : (chooseBlock a a).k ≤ a.length := by
      rcases foldl_maxStep_mem (blockCandidates a a) ⟨0, 0, 0⟩ with h0 | hm
      · rw [show chooseBlock a a = (blockCandidates a a).foldl maxStep ⟨0, 0, 0⟩ from rfl,
          h0]
        exact Nat.zero_le _
      · exact hub _ hm
    omega
  rcases foldl_maxStep_mem (blockCandidates a a) ⟨0, 0, 0⟩ with h0 | hm
  · rw [show chooseBlock a a = (blockCandidates a a).foldl maxStep ⟨0, 0, 0⟩ from rfl,
      h0] at hk ⊢
    simp at hk
    omega
  · rcases mem_blockCandidates.mp hm with ⟨i, j, hi, hj, he⟩
    have he' : chooseBlock a a = ⟨i, j, runLen a a i j⟩ := he
    rw [he'] at hk
    dsimp only at hk
    have hil := runLen_le_left a a i j
    have hjr := runLen_le_right a a i j
    have hi0 : i = 0 := by omega
    have hj0 : j = 0 := by omega
    rw [he', hi0, hj0, hrun]

theorem matchTotal_self :
    ∀ (fuel : ℕ) (a : List Char), a.length ≤ fuel → matchTotal fuel a a = a.length := by
  intro fuel
  induction fuel with
  | zero =>
    intro a h
    have : a.length = 0 := Nat.le_zero.mp h
    simp [matchTotal, this]
  | succ n ih =>
    intro a h
    by_cases hnil : a = []
    · subst hnil
      simp [matchTotal, chooseBlock, blockCandidates]
    · have hlen : a.length ≠ 0 := fun h0 => hnil (List.length_eq_zero.mp h0)
      have h0 : matchTotal n [] [] = 0 := by
        cases n with
        | zero => rfl
        | succ m => rw [matchTotal]; simp [chooseBlock, blockCandidates]
      rw [matchTotal]
      simp only [chooseBlock_self hnil]
      rw [if_neg hlen]
      simp [h0]

theorem chooseBlock_disjoint {a b : List Char} (h : ∀ c ∈ a, c ∉ b) :
    chooseBlock a b = ⟨0, 0, 0⟩ := by
  apply foldl_maxStep_eq_of_le
  intro c hc
  rcases mem_blockCandidates.mp hc with ⟨i, j, _, _, rfl⟩
  have : runLen a b i j = 0 := by
    apply commonRun_disjoint
    intro c hc hcb
    exact h c (List.mem_of_mem_drop hc) (List.mem_of_mem_drop hcb)
  simp [this]

theorem matchTotal_disjoint (fuel : ℕ) {a b : List Char} (h : ∀ c ∈ a, c ∉ b) :
    matchTotal fuel a b = 0 := by
  cases fuel with
  | zero => rfl
  | succ n => rw [matchTotal]; simp [chooseBlock_disjoint h]

theorem simRatio_nonneg (a b : List Char) : 0 ≤ simRatio a b := by
  unfold simRatio
  split
  · norm_num
  · positivity

theorem simRatio_le_one (a b : List Char) : simRatio a b ≤ 1 := by
  unfold simRatio
  split
  · norm_num
  · rename_i h
    have hpos : 0 < (a.length : ℚ) + b.length := by
      have : 0 < a.length + b.length := Nat.pos_of_ne_zero h
      exact_mod_cast this
    rw [div_le_one hpos]
    have h1 := (matchTotal_le a.length a b).1
    have h2 := (matchTotal_le a.length a b).2
    have : 2 * matchTotal a.length a b ≤ a.length + b.length := by omega
    exact_mod_cast this

theorem simRatio_self (a : List Char) : simRatio a a = 1 := by
  unfold simRatio
  split
  · rfl
  · rename_i h
    have hlen : (a.length : ℚ) ≠ 0 := by
      have : a.length ≠ 0 := fun h0 => h (by omega)
      exact_mod_cast this
    rw [matchTotal_self a.length a (le_refl _)]
    field_simp
    ring

theorem simRatio_disjoint {a b : List Char} (h : ∀ c ∈ a, c ∉ b)
    (hne : a.length + b.length ≠ 0) : simRatio a b = 0 := by
  unfold simRatio
  rw [if_neg hne, matchTotal_disjoint _ h]
  simp

theorem similarity_nonneg (a b : String) : 0 ≤ similarity a b :=
  simRatio_nonneg _ _

theorem similarity_le_one (a b : String) : similarity a b ≤ 1 :=
  simRatio_le_one _ _

theorem similarity_self (a : String) : similarity a a = 1 :=
  simRatio_self _

theorem similarity_disjoint {a b : String} (h : ∀ c ∈ lowerStr a, c ∉ lowerStr b)
    (hne : a ≠ "" ∨ b ≠ "") : similarity a b = 0 := by
  apply simRatio_disjoint h
  rcases hne with hne | hne
  · have hd : a.data ≠ [] := fun h0 => hne (String.ext_iff.mpr (by simp [h0]))
    have hl : lowerStr a ≠ [] := by simp [lowerStr, hd]
    have : (lowerStr a).length ≠ 0 := fun h0 => hl (List.length_eq_zero.mp h0)
    omega
  · have hd : b.data ≠ [] := fun h0 => hne (String.ext_iff.mpr (by simp [h0]))
    have hl : lowerStr b ≠ [] := by simp [lowerStr, hd]
    have : (lowerStr b).length ≠ 0 := fun h0 => hl (List.length_eq_zero.mp h0)
    omega

/-! ## Claim C2 -/

/-- C2, counterexample: the similarity score is not symmetric.  The matcher
finds total match 2 between `"ab"` and `"bacb"` but only 1 in the swapped
order, so the scores are `2/3` and `1/3`. -/
theorem c2_counterexample : similarity "ab" "bacb" ≠ similarity "bacb" "ab" := by
  have h1 : matchTotal (lowerStr "ab").length (lowerStr "ab") (lowerStr "bacb") = 2 := by
    decide
  have h2 : matchTotal (lowerStr "bacb").length (lowerStr "bacb") (lowerStr "ab") = 1 := by
    decide
  have l1 : (lowerStr "ab").length = 2 := by decide
  have l2 : (lowerStr "bacb").length = 4 := by decide
  unfold similarity simRatio
  rw [h1, h2, l1, l2]
  norm_num

/-- C2, amended: `similarity` always lies in `[0, 1]`, equals `1.0` on
identical inputs (any `a`, in particular non-empty ones), and equals `0.0`
when the lower-cased inputs share no character and at least one is
non-empty; but it is not symmetric (see the counterexample). -/
theorem c2_amended :
    (∀ a b : String, 0 ≤ similarity a b ∧ similarity a b ≤ 1) ∧
      (∀ a : String, similarity a a = 1) ∧
      (∀ a b : String, (∀ c ∈ lowerStr a, c ∉ lowerStr b) → (a ≠ "" ∨ b ≠ "") →
        similarity a b = 0) :=
  ⟨fun a b => ⟨similarity_nonneg a b, similarity_le_one a b⟩,
   similarity_self,
   fun _ _ h hne => similarity_disjoint h hne⟩

/-- C2 witness: concrete instances of the amended claim, at `"hades"` and
the disjoint pair `"abc"`/`"xyz"`. -/
theorem c2_amended_witness :
    similarity "hades" "hades" = 1 ∧ similarity "abc" "xyz" = 0 :=
  ⟨c2_amended.2.1 "hades",
   c2_amended.2.2 "abc" "xyz" (by decide) (Or.inl (by decide))⟩

/-! ## Lemmas about the duration estimator -/

theorem pyRoundInt_intCast (n : ℤ) : pyRoundInt (n : ℚ) = n := by
  unfold pyRoundInt
  rw [Int.floor_intCast]
  norm_num

theorem pyRoundInt_ge_floor (x : ℚ) : ⌊x⌋ ≤ pyRoundInt x := by
  simp only [pyRoundInt]
  split_ifs <;> omega

theorem round1_of_eq_int (x : ℚ) (n : ℤ) (h : 10 * x = (n : ℚ)) :
    round1 x = (n : ℚ) / 10 := by
  rw [round1, h, pyRoundInt_intCast]

theorem genreRatio_ge (gs : List String) : 3 / 2 ≤ genreRatio gs := by
  rw [genreRatio]
  split_ifs <;> norm_num

theorem tagAdjust_ge (gs ts : List String) : 6 / 5 ≤ tagAdjust gs ts := by
  have hg := genreRatio_ge gs
  rw [tagAdjust]
  split_ifs <;> nlinarith

theorem simFloor_ge (gs ts : List String) : 6 / 5 ≤ simFloor gs ts := by
  have ht := tagAdjust_ge gs ts
  rw [simFloor]
  split_ifs
  · exact le_trans ht (le_max_left _ _)
  · exact ht

theorem hltbRatio_ge (gs ts : List String) : 6 / 5 ≤ hltbRatio gs ts := by
  have hs := simFloor_ge gs ts
  rw [hltbRatio]
  split_ifs
  · exact le_trans hs (le_max_left _ _)
  · exact hs

/-- The estimator, on a positive playtime, returns `round1 (p * r)` for a
branch ratio `r ≥ 6/5`. -/
theorem estimate_some (p : ℤ) (g t : List String) (hp : ¬ p ≤ 0) :
    ∃ r : ℚ, estimate_hltb_from_rawg (some p) g t = some (round1 ((p : ℚ) * r)) ∧
      6 / 5 ≤ r := by
  rw [estimate_hltb_from_rawg, if_neg hp]
  dsimp only
  split_ifs
  · exact ⟨_, rfl, by norm_num⟩
  · exact ⟨_, rfl, by norm_num⟩
  · exact ⟨_, rfl, by norm_num⟩
  · exact ⟨_, rfl, hltbRatio_ge _ _⟩

/-- Each estimator branch returns `round1 (p * r)`, a positive multiple of
one tenth, whenever `0 < p` and `6/5 ≤ r`. -/
theorem estimate_branch (p : ℤ) (r : ℚ) (hp : 0 < p) (hr : 6 / 5 ≤ r) :
    ∃ n : ℤ, some (round1 ((p : ℚ) * r)) = some ((n : ℚ) / 10) ∧
      0 < ((n : ℚ) / 10) := by
  refine ⟨pyRoundInt (10 * ((p : ℚ) * r)), rfl, ?_⟩
  have hp1 : (1 : ℚ) ≤ (p : ℚ) := by exact_mod_cast hp
  have hx : (12 : ℚ) ≤ 10 * ((p : ℚ) * r) := by nlinarith
  have hfl : (12 : ℤ) ≤ ⌊10 * ((p : ℚ) * r)⌋ := Int.le_floor.mpr (by exact_mod_cast hx)
  have hge := pyRoundInt_ge_floor (10 * ((p : ℚ) * r))
  have hn : (0 : ℤ) < pyRoundInt (10 * ((p : ℚ) * r)) := by omega
  have : (0 : ℚ) < (pyRoundInt (10 * ((p : ℚ) * r)) : ℚ) := by exact_mod_cast hn
  positivity

/-! ## Claim C6 -/

/-- C6: the estimator returns `none` exactly when the playtime is absent or
non-positive, and matches the spec's four worked examples (`1.2 = 6/5`). -/
theorem c6_estimator :
    (∀ g t : List String, estimate_hltb_from_rawg none g t = none) ∧
      (∀ (p : ℤ) (g t : List String),
        estimate_hltb_from_rawg (some p) g t = none ↔ p ≤ 0) ∧
      estimate_hltb_from_rawg (some 10) [] [] = some 25 ∧
      estimate_hltb_from_rawg (some 1) [] [] = some (6 / 5) ∧
      estimate_hltb_from_rawg (some 20) ["Simulation"] [] = some 70 := by
  refine ⟨fun g t => rfl, ?_, ?_, ?_, ?_⟩
  · intro p g t
    constructor
    · intro h
      by_contra hp
      obtain ⟨r, he, _⟩ := estimate_some p g t hp
      rw [he] at h
      exact Option.noConfusion h
    · intro hp
      rw [estimate_hltb_from_rawg, if_pos hp]
  · have hr : hltbRatio [] [] = 5 / 2 := by
      rw [hltbRatio, simFloor, tagAdjust, genreRatio]
      simp +decide
    rw [estimate_hltb_from_rawg]
    dsimp only [List.map_nil]
    rw [if_neg (show ¬ (10 : ℤ) ≤ 0 by norm_num),
      if_neg (show ¬ (10 : ℤ) ≤ 2 by norm_num),
      if_neg (show ¬ (10 : ℤ) ≤ 3 by norm_num),
      if_neg (show ¬ (10 : ℤ) ≤ 5 by norm_num), hr,
      round1_of_eq_int _ 250 (by norm_num)]
    norm_num
  · rw [estimate_hltb_from_rawg]
    dsimp only [List.map_nil]
    rw [if_neg (show ¬ (1 : ℤ) ≤ 0 by norm_num),
      if_pos (show (1 : ℤ) ≤ 2 by norm_num),
      round1_of_eq_int _ 12 (by norm_num)]
    norm_num
  · have hs : ((⟨lowerStr "Simulation"⟩ : String)) = "simulation" := by decide
    have hr : hltbRatio ["simulation"] [] = 7 / 2 := by
      rw [hltbRatio, simFloor, tagAdjust, genreRatio]
      simp +decide
      norm_num [max_def]
    rw [estimate_hltb_from_rawg]
    dsimp only [List.map_nil, List.map_cons]
    rw [if_neg (show ¬ (20 : ℤ) ≤ 0 by norm_num),
      if_neg (show ¬ (20 : ℤ) ≤ 2 by norm_num),
      if_neg (show ¬ (20 : ℤ) ≤ 3 by norm_num),
      if_neg (show ¬ (20 : ℤ) ≤ 5 by norm_num), hs, hr,
      round1_of_eq_int _ 700 (by norm_num)]
    norm_num

/-! ## Claim C8 -/

/-- C8: for every strictly positive playtime the estimate is a strictly
positive rational with one decimal place of precision (an integer number of
tenths), never zero or negative. -/
theorem c8_positive (p : ℤ) (g t : List String) (hp : 0 < p) :
    ∃ n : ℤ, estimate_hltb_from_rawg (some p) g t = some ((n : ℚ) / 10) ∧
      0 < ((n : ℚ) / 10) := by
  have hp' : ¬ p ≤ 0 := by omega
  obtain ⟨r, he, hr⟩ := estimate_some p g t hp'
  obtain ⟨n, h1, h2⟩ := estimate_branch p r hp hr
  exact ⟨n, he.trans h1, h2⟩

/-- C8 witness: at playtime 10 with no genres or tags. -/
theorem c8_positive_witness :
    ∃ n : ℤ, estimate_hltb_from_rawg (some 10) [] [] = some ((n : ℚ) / 10) ∧
      0 < ((n : ℚ) / 10) :=
  c8_positive 10 [] [] (by norm_num)

/-! ## Lemmas about the sequel detector -/

theorem tokenAtB_iff {s : List Char} {i : ℕ} {w : List Char} :
    tokenAtB s i w = true ↔ WholeWordAt s i w := by
  simp only [tokenAtB, WholeWordAt, Bool.and_eq_true, Bool.or_eq_true,
    decide_eq_true_eq, Bool.not_eq_true', beq_iff_eq,
    List.isPrefixOf_iff_prefix]
  tauto

theorem WholeWordAt_lt {s : List Char} {i : ℕ} {w : List Char} (hw : w ≠ [])
    (h : WholeWordAt s i w) : i < s.length + 1 := by
  have h1 : w.length ≤ (s.drop i).length := h.1.length_le
  have h2 : 0 < w.length := List.length_pos.mpr hw
  rw [List.length_drop] at h1
  omega

theorem digitTokens_repr : ∀ w ∈ digitTokens,
    ∃ n, (1 ≤ n ∧ n ≤ 10) ∧ (Nat.repr n).data = w := by
  intro w hw
  fin_cases hw
  · exact ⟨1, by norm_num, by decide⟩
  · exact ⟨2, by norm_num, by decide⟩
  · exact ⟨3, by norm_num, by decide⟩
  · exact ⟨4, by norm_num, by decide⟩
  · exact ⟨5, by norm_num, by decide⟩
  · exact ⟨6, by norm_num, by decide⟩
  · exact ⟨7, by norm_num, by decide⟩
  · exact ⟨8, by norm_num, by decide⟩
  · exact ⟨9, by norm_num, by decide⟩
  · exact ⟨10, by norm_num, by decide⟩

theorem repr_mem_digitTokens {n : ℕ} (h1 : 1 ≤ n) (h2 : n ≤ 10) :
    (Nat.repr n).data ∈ digitTokens ∧ (Nat.repr n).data ≠ [] := by
  interval_cases n <;> exact ⟨by decide, by decide⟩

theorem romanTokens_ne_nil : ∀ w ∈ romanTokens, w ≠ [] := by decide

/-! ## Claim C9 -/

/-- C9: `is_sequel` holds exactly when the title contains a whole-word roman
numeral `ii|iii|iv|v` (case-insensitively), or a whole-word integer `1..10`
not immediately followed by another digit; with the spec's four examples. -/
theorem c9_is_sequel :
    (∀ title : String,
      is_sequel title = true ↔ RomanSequel title ∨ NumberSequel title) ∧
      is_sequel "Cyberpunk 2077" = false ∧
      is_sequel "Hades II" = true ∧
      is_sequel "Diablo III" = true ∧
      is_sequel "Hades" = false := by
  refine ⟨?_, by decide, by decide, by decide, by decide⟩
  intro title
  rw [is_sequel]
  simp only [Bool.or_eq_true, List.any_eq_true, List.mem_range, Bool.and_eq_true,
    Bool.not_eq_true']
  constructor
  · rintro (⟨i, _, w, hw, htok⟩ | ⟨i, _, w, hw, htok, hdig⟩)
    · exact Or.inl ⟨w, hw, i, tokenAtB_iff.mp htok⟩
    · obtain ⟨n, ⟨hn1, hn2⟩, hrepr⟩ := digitTokens_repr w hw
      exact Or.inr ⟨n, hn1, hn2, i, by rw [hrepr]; exact tokenAtB_iff.mp htok,
        by rw [hrepr]; exact hdig⟩
  · rintro (⟨w, hw, i, hww⟩ | ⟨n, hn1, hn2, i, hww, hdig⟩)
    · exact Or.inl ⟨i, WholeWordAt_lt (romanTokens_ne_nil w hw) hww, w, hw,
        tokenAtB_iff.mpr hww⟩
    · obtain ⟨hmem, hne⟩ := repr_mem_digitTokens hn1 hn2
      exact Or.inr ⟨i, WholeWordAt_lt hne hww, (Nat.repr n).data, hmem,
        tokenAtB_iff.mpr hww, hdig⟩

/-! ## Lemmas about the best-score selection loop -/

theorem pickBest_aux {α : Type} (score : α → ℚ) :
    ∀ (l : List α) (acc : ℚ × Option α),
      l.foldl (fun acc x => if acc.1 < score x then (score x, some x) else acc) acc
          = acc ∨
        ∃ x ∈ l,
          l.foldl (fun acc x => if acc.1 < score x then (score x, some x) else acc) acc
            = (score x, some x) := by
  intro l
  induction l with
  | nil => intro acc; left; rfl
  | cons y t ih =>
    intro acc
    rw [List.foldl_cons]
    rcases ih (if acc.1 < score y then (score y, some y) else acc) with h | ⟨x, hx, h⟩
    · rw [h]
      split
      · right; exact ⟨y, by simp, rfl⟩
      · left; rfl
    · right; exact ⟨x, by simp [hx], h⟩

theorem pickBest_some {α : Type} {score : α → ℚ} {l : List α} {x : α}
    (h : (pickBest score l).2 = some x) :
    x ∈ l ∧ score x = (pickBest score l).1 := by
  rcases pickBest_aux score l ((0 : ℚ), none) with h0 | ⟨y, hy, he⟩
  · rw [show pickBest score l =
      l.foldl (fun acc x => if acc.1 < score x then (score x, some x) else acc)
        ((0 : ℚ), none) from rfl, h0] at h
    exact absurd h (by simp)
  · rw [show pickBest score l =
      l.foldl (fun acc x => if acc.1 < score x then (score x, some x) else acc)
        ((0 : ℚ), none) from rfl, he] at h ⊢
    obtain rfl : y = x := by simpa using h
    exact ⟨hy, rfl⟩

/-! ## Claim C4 -/

/-- C4: the resolver's rules short-circuit in priority order: the first
case-insensitively exact candidate is returned at once; otherwise the first
candidate (in list order) whose normalized name extends the normalized query
is returned; and on the spec's concrete example the prefix rule returns
`1145350`. -/
theorem c4_priority :
    (∀ (name : String) (cs : List Candidate) (c : Candidate),
        cs.find? (exactPred name) = some c →
        search_app_id_by_name name (some cs) = some c.appid) ∧
      (∀ (name : String) (cs : List Candidate) (c : Candidate),
        cs.find? (exactPred name) = none →
        cs.find? (startsPred (normalize name)) = some c →
        search_app_id_by_name name (some cs) = some c.appid) ∧
      search_app_id_by_name "Hades"
          (some [⟨"Hades II", 1145350⟩, ⟨"Hades: Prelude", 999999⟩]) =
        some 1145350 := by
  refine ⟨?_, ?_, by decide⟩
  · intro name cs c h
    have hne : cs.isEmpty = false := by
      cases cs with
      | nil => simp at h
      | cons a l => rfl
    simp only [search_app_id_by_name, hne, Bool.false_eq_true, if_false, h]
  · intro name cs c hex hpre
    have hne : cs.isEmpty = false := by
      cases cs with
      | nil => simp at hpre
      | cons a l => rfl
    simp only [search_app_id_by_name, hne, Bool.false_eq_true, if_false, hex, hpre]

/-- C4 witness: both short-circuit rules applied at concrete inputs. -/
theorem c4_priority_witness :
    search_app_id_by_name "Hades" (some [⟨"hades", 1145360⟩]) = some 1145360 ∧
      search_app_id_by_name "Foo" (some [⟨"Foobar", 7⟩]) = some 7 :=
  ⟨c4_priority.1 "Hades" [⟨"hades", 1145360⟩] ⟨"hades", 1145360⟩ (by decide),
   c4_priority.2.1 "Foo" [⟨"Foobar", 7⟩] ⟨"Foobar", 7⟩ (by decide) (by decide)⟩

/-! ## Claim C1 -/

/-- C1, counterexample: the prefix rule can return a candidate whose
similarity against the query is far below the 0.3 threshold, so the
invariant as stated fails.  Query `"A"` prefix-matches the candidate
`"Abcdefghextreme"` (score `1/8 < 3/10`) and its identifier is returned. -/
theorem c1_counterexample :
    search_app_id_by_name "A" (some [⟨"Abcdefghextreme", 42⟩]) = some 42 ∧
      similarity (normalize "A") (normalize "Abcdefghextreme") < 3 / 10 := by
  constructor
  · decide
  · have h1 : matchTotal (lowerStr (normalize "A")).length
        (lowerStr (normalize "A")) (lowerStr (normalize "Abcdefghextreme")) = 1 := by
      decide
    have l1 : (lowerStr (normalize "A")).length = 1 := by decide
    have l2 : (lowerStr (normalize "Abcdefghextreme")).length = 15 := by decide
    unfold similarity simRatio
    rw [h1, l1, l2]
    norm_num

/-- C1, amended: when neither the exact rule nor the prefix rule fires (so
the resolver answers through the best-similarity rule), a returned
identifier always belongs to a candidate whose similarity against the
normalized query is at least the 0.3 threshold. -/
theorem c1_amended (name : String) (cs : List Candidate) (appId : ℤ)
    (hex : cs.find? (exactPred name) = none)
    (hpre : cs.find? (startsPred (normalize name)) = none)
    (h : search_app_id_by_name name (some cs) = some appId) :
    ∃ c ∈ cs, c.appid = appId ∧
      3 / 10 ≤ similarity (normalize name) (normalize c.name) := by
  by_cases hne : cs.isEmpty
  · rw [search_app_id_by_name] at h
    rw [if_pos hne] at h
    exact absurd h (by simp)
  · rw [Bool.not_eq_true] at hne
    rw [search_app_id_by_name] at h
    simp only [hne, Bool.false_eq_true, if_false, hex, hpre] at h
    set filtered₀ := cs.filter (filterPred name (normalize name)) with hf0
    set filtered := if filtered₀.isEmpty then cs else filtered₀ with hf
    set best := pickBest (fun c => similarity (normalize name) (normalize c.name))
      filtered with hb
    by_cases hlt : best.1 < 3 / 10
    · rw [if_pos hlt] at h
      exact absurd h (by simp)
    · rw [if_neg hlt] at h
      obtain ⟨c, hc2, hc1⟩ := Option.map_eq_some'.mp h
      obtain ⟨hmem, hscore⟩ := pickBest_some hc2
      have hsub : c ∈ cs := by
        rcases Decidable.em (filtered₀.isEmpty = true) with he | he
        · rw [hf, if_pos he] at hmem
          exact hmem
        · rw [hf, if_neg he] at hmem
          exact List.mem_of_mem_filter hmem
      exact ⟨c, hsub, hc1, by rw [hscore]; exact le_of_not_lt hlt⟩

/-- C1 witness for the amended claim: query `"hades"` against the single
candidate `"xhades"` reaches the similarity rule and returns its id. -/
theorem c1_amended_witness :
    ∃ c ∈ [(⟨"xhades", 77⟩ : Candidate)], c.appid = 77 ∧
      3 / 10 ≤ similarity (normalize "hades") (normalize c.name) := by
  refine c1_amended "hades" [⟨"xhades", 77⟩] 77 (by decide) (by decide) ?_
  have h1 : matchTotal (lowerStr (normalize "hades")).length
      (lowerStr (normalize "hades")) (lowerStr (normalize "xhades")) = 5 := by decide
  have hsim : similarity (normalize "hades") (normalize "xhades") = 10 / 11 := by
    unfold similarity simRatio
    rw [h1, show (lowerStr (normalize "hades")).length = 5 by decide,
      show (lowerStr (normalize "xhades")).length = 6 by decide]
    norm_num
  rw [search_app_id_by_name]
  simp only [show ([(⟨"xhades", 77⟩ : Candidate)]).isEmpty = false by decide,
    Bool.false_eq_true, if_false,
    show ([(⟨"xhades", 77⟩ : Candidate)]).find? (exactPred "hades") = none by decide,
    show ([(⟨"xhades", 77⟩ : Candidate)]).find?
        (startsPred (normalize "hades")) = none by decide,
    show ([(⟨"xhades", 77⟩ : Candidate)]).filter
        (filterPred "hades" (normalize "hades")) = [⟨"xhades", 77⟩] by decide]
  simp only [pickBest, List.foldl_cons, List.foldl_nil, hsim]
  norm_num

/-! ## Lemmas about the Catalog-B resolver -/

theorem pickBest_acc_le {α : Type} (score : α → ℚ) :
    ∀ (l : List α) (acc : ℚ × Option α),
      acc.1 ≤ (l.foldl (fun acc x =>
        if acc.1 < score x then (score x, some x) else acc) acc).1 := by
  intro l
  induction l with
  | nil => intro acc; exact le_refl _
  | cons y t ih =>
    intro acc
    rw [List.foldl_cons]
    refine le_trans ?_ (ih _)
    split
    · rename_i hlt
      exact le_of_lt hlt
    · exact le_refl _

theorem pickBest_fst_ge {α : Type} (score : α → ℚ) :
    ∀ (l : List α) (acc : ℚ × Option α) (x : α), x ∈ l →
      score x ≤ (l.foldl (fun acc x =>
        if acc.1 < score x then (score x, some x) else acc) acc).1 := by
  intro l
  induction l with
  | nil => intro acc x hx; simp at hx
  | cons y t ih =>
    intro acc x hx
    rw [List.foldl_cons]
    rcases List.mem_cons.mp hx with heq | hx
    · subst heq
      refine le_trans ?_ (pickBest_acc_le score t _)
      split
      · exact le_refl _
      · rename_i hlt
        exact le_of_not_lt hlt
    · exact ih _ x hx

theorem best_rawg_match_some {results : List RawgGame} {nm : String} {g : RawgGame}
    (h : best_rawg_match results nm = some g) :
    g ∈ results ∧ 45 / 100 ≤ similarity (normalize nm) (normalize g.name) ∧
      ∀ g' ∈ results, similarity (normalize nm) (normalize g'.name) ≤
        similarity (normalize nm) (normalize g.name) := by
  rw [best_rawg_match] at h
  by_cases hge : 45 / 100 ≤
      (pickBest (fun g => similarity (normalize nm) (normalize g.name)) results).1
  · rw [if_pos hge] at h
    obtain ⟨hmem, hscore⟩ := pickBest_some h
    refine ⟨hmem, by rw [hscore]; exact hge, ?_⟩
    intro g' hg'
    rw [hscore]
    exact pickBest_fst_ge _ results _ g' hg'
  · rw [if_neg hge] at h
    exact absurd h (by simp)

theorem best_rawg_match_nil (nm : String) : best_rawg_match [] nm = none := by
  rw [best_rawg_match]
  simp only [pickBest, List.foldl_nil]
  norm_num

theorem tryStrategies_miss (o : Oracle) (nm : String) :
    ∀ l : List String, (∀ q ∈ l, strategyHit o nm q = false) →
      tryStrategies o nm l = (none, l) := by
  intro l
  induction l with
  | nil => intro _; rfl
  | cons q rest ih =>
    intro hall
    have hq := hall q (by simp)
    have hrest := ih fun q' hq' => hall q' (by simp [hq'])
    rw [tryStrategies]
    rw [strategyHit] at hq
    cases ho : o q with
    | none => rw [hrest]
    | some results =>
      rw [ho] at hq
      dsimp only at hq
      dsimp only
      cases hres : results.isEmpty with
      | true =>
        rw [if_pos rfl, hrest]
      | false =>
        rw [if_neg (show ¬(false = true) from Bool.false_ne_true)]
        have hbm : best_rawg_match results nm = none := by
          rw [hres, Bool.not_false, Bool.true_and] at hq
          exact Option.not_isSome_iff_eq_none.mp
            (by rw [hq]; exact Bool.false_ne_true)
        rw [hbm, hrest]

theorem tryStrategies_hit (o : Oracle) (nm : String) (q : String)
    (results : List RawgGame) (g : RawgGame)
    (ho : o q = some results) (hbm : best_rawg_match results nm = some g) :
    ∀ (pre : List String), (∀ q' ∈ pre, strategyHit o nm q' = false) →
      ∀ post : List String,
        tryStrategies o nm (pre ++ q :: post) =
          (some (extract_rawg_fields g), pre ++ [q]) := by
  have hresne : results.isEmpty = false := by
    cases results with
    | nil =>
      rw [best_rawg_match_nil] at hbm
      exact Option.noConfusion hbm
    | cons a l => rfl
  intro pre
  induction pre with
  | nil =>
    intro _ post
    rw [List.nil_append, tryStrategies, ho]
    dsimp only
    rw [if_neg (by rw [hresne]; exact Bool.false_ne_true), hbm]
    rfl
  | cons p pre' ih =>
    intro hall post
    have hp := hall p (by simp)
    have hrest := ih (fun q' hq' => hall q' (by simp [hq'])) post
    rw [List.cons_append, tryStrategies]
    rw [strategyHit] at hp
    cases hop : o p with
    | none => rw [hrest]; rfl
    | some results' =>
      rw [hop] at hp
      dsimp only at hp
      dsimp only
      cases hres : results'.isEmpty with
      | true =>
        rw [if_pos rfl, hrest]
        rfl
      | false =>
        rw [if_neg (show ¬(false = true) from Bool.false_ne_true)]
        have hbm' : best_rawg_match results' nm = none := by
          rw [hres, Bool.not_false, Bool.true_and] at hp
          exact Option.not_isSome_iff_eq_none.mp
            (by rw [hp]; exact Bool.false_ne_true)
        rw [hbm', hrest]
        rfl

/-! ## Claim C5 -/

/-- C5: on a cache miss the strategies are issued in order; the first
strategy whose (non-empty) response yields an accepted match populates the
cache with the extracted record and is returned at once, later strategies
are never queried, and the accepted entry maximizes similarity against the
original title with score at least 0.45. -/
theorem c5_strategies (o : Oracle) (cache : Cache) (nm : String) (id : Option ℤ)
    (pre : List String) (q : String) (post : List String)
    (results : List RawgGame) (g : RawgGame)
    (hmiss : cache.lookup (cacheKey nm id) = none)
    (hsplit : strategiesFor nm id = pre ++ q :: post)
    (hpre : ∀ q' ∈ pre, strategyHit o nm q' = false)
    (ho : o q = some results)
    (hbm : best_rawg_match results nm = some g) :
    get_rawg_data o cache nm id =
        (extract_rawg_fields g,
          (cacheKey nm id, extract_rawg_fields g) :: cache, pre ++ [q]) ∧
      g ∈ results ∧
      45 / 100 ≤ similarity (normalize nm) (normalize g.name) ∧
      ∀ g' ∈ results, similarity (normalize nm) (normalize g'.name) ≤
        similarity (normalize nm) (normalize g.name) := by
  obtain ⟨hg, hth, hmax⟩ := best_rawg_match_some hbm
  refine ⟨?_, hg, hth, hmax⟩
  rw [get_rawg_data]
  simp only [hmiss, hsplit, tryStrategies_hit o nm q results g ho hbm pre hpre post]

/-- C5 witness: query `"Hades!"` under an oracle that fails on the raw
title but accepts the sanitized title `"hades"`. -/
theorem c5_strategies_witness :
    get_rawg_data hitOracle [] "Hades!" none =
        ((some 7, ["RPG"], []),
          [(cacheKey "Hades!" none, (some 7, ["RPG"], []))], ["Hades!", "hades"]) ∧
      hadesGame ∈ [hadesGame] ∧
      45 / 100 ≤ similarity (normalize "Hades!") (normalize hadesGame.name) ∧
      ∀ g' ∈ [hadesGame], similarity (normalize "Hades!") (normalize g'.name) ≤
        similarity (normalize "Hades!") (normalize hadesGame.name) := by
  have hbm : best_rawg_match [hadesGame] "Hades!" = some hadesGame := by
    rw [best_rawg_match]
    simp only [pickBest, List.foldl_cons, List.foldl_nil]
    rw [show normalize "Hades!" = "hades" by decide,
      show hadesGame.name = "hades" from rfl,
      show normalize "hades" = "hades" by decide, similarity_self]
    norm_num
  exact c5_strategies hitOracle [] "Hades!" none ["Hades!"] "hades" ["hades"]
    [hadesGame] hadesGame rfl (by decide) (by decide) (by decide) hbm

/-! ## Claim C3 -/

/-- C3, counterexample: when every strategy fails, the first call does not
populate the cache, so the second identical call issues network queries
again (three queries here, not zero). -/
theorem c3_counterexample :
    (get_rawg_data failOracle [] "Hades" none).2.1 = [] ∧
      (get_rawg_data failOracle
          (get_rawg_data failOracle [] "Hades" none).2.1 "Hades" none).2.2 =
        ["Hades", "hades", "hades"] := by
  constructor <;> decide

/-- C3, amended: whenever the pair is cached after the first call — which
happens exactly when the first call found a usable match or was itself a
cache hit — the second identical call returns the same record from the
cache and issues zero queries.  A first call that fails every strategy does
not populate the cache (see the counterexample). -/
theorem c3_amended (o : Oracle) (cache : Cache) (nm : String) (id : Option ℤ)
    (r : Record) (c' : Cache) (qs : List String)
    (h : get_rawg_data o cache nm id = (r, c', qs))
    (hcached : (c'.lookup (cacheKey nm id)).isSome = true) :
    get_rawg_data o c' nm id = (r, c', []) := by
  rw [get_rawg_data] at h
  cases hl : cache.lookup (cacheKey nm id) with
  | some r0 =>
    rw [hl] at h
    dsimp only at h
    simp only [Prod.mk.injEq] at h
    obtain ⟨hr, hc, hqs⟩ := h
    subst hr
    subst hc
    rw [get_rawg_data, hl]
  | none =>
    rw [hl] at h
    cases htry : tryStrategies o nm (strategiesFor nm id) with
    | mk res qs1 =>
      cases res with
      | some r1 =>
        rw [htry] at h
        dsimp only at h
        simp only [Prod.mk.injEq] at h
        obtain ⟨hr, hc, hqs⟩ := h
        subst hr
        subst hc
        rw [get_rawg_data]
        simp only [List.lookup]
        rw [show (cacheKey nm id == cacheKey nm id) = true from beq_self_eq_true _]
      | none =>
        rw [htry] at h
        dsimp only at h
        simp only [Prod.mk.injEq] at h
        obtain ⟨hr, hc, hqs⟩ := h
        subst hc
        rw [hl] at hcached
        exact absurd hcached (by simp)

/-- C3 witness: after a successful first call cached the record for
`("hades", none)`, the second call returns it with zero queries. -/
theorem c3_amended_witness :
    get_rawg_data hitOracle [(cacheKey "hades" none, (some 7, ["RPG"], []))]
        "hades" none =
      ((some 7, ["RPG"], []),
        [(cacheKey "hades" none, (some 7, ["RPG"], []))], []) := by
  have hbm : best_rawg_match [hadesGame] "hades" = some hadesGame := by
    rw [best_rawg_match]
    simp only [pickBest, List.foldl_cons, List.foldl_nil]
    rw [show hadesGame.name = "hades" from rfl,
      show normalize "hades" = "hades" by decide, similarity_self]
    norm_num
  have h1 : get_rawg_data hitOracle [] "hades" none =
      ((some 7, ["RPG"], []),
        [(cacheKey "hades" none, (some 7, ["RPG"], []))], ["hades"]) := by
    have := (c5_strategies hitOracle [] "hades" none [] "hades" ["hades"]
      [hadesGame] hadesGame rfl (by decide) (by decide) (by decide) hbm).1
    simpa using this
  exact c3_amended hitOracle [] "hades" none (some 7, ["RPG"], [])
    [(cacheKey "hades" none, (some 7, ["RPG"], []))] ["hades"] h1 (by decide)

/-! ## Claim C7 -/

/-- C7: the enumerated failure paths all terminate in sentinel values: a
malformed (non-JSON) Catalog-A response or an empty candidate list resolves
to `none`, and a Catalog-B run in which every strategy fails returns the
empty record `(none, [], [])` with the cache unchanged. -/
theorem c7_total :
    (∀ name : String, search_app_id_by_name name none = none) ∧
      (∀ name : String, search_app_id_by_name name (some []) = none) ∧
      ∀ (o : Oracle) (cache : Cache) (nm : String) (id : Option ℤ),
        cache.lookup (cacheKey nm id) = none →
        (∀ q ∈ strategiesFor nm id, strategyHit o nm q = false) →
        get_rawg_data o cache nm id = ((none, [], []), cache, strategiesFor nm id) := by
  refine ⟨fun name => rfl, fun name => rfl, ?_⟩
  intro o cache nm id hmiss hall
  rw [get_rawg_data]
  simp only [hmiss, tryStrategies_miss o nm _ hall]

/-- C7 witness: the all-failing oracle on query `"Hades"`. -/
theorem c7_total_witness :
    get_rawg_data failOracle [] "Hades" none =
      ((none, [], []), [], strategiesFor "Hades" none) :=
  c7_total.2.2 failOracle [] "Hades" none (by decide) (by decide)

/-! ## Lemmas about the cache key -/

theorem digitCh_isDigit {d : ℕ} (h : d < 10) : (digitCh d).isDigit = true := by
  interval_cases d <;> decide

theorem digitCh_inj_lt : ∀ d₁ < 10, ∀ d₂ < 10, digitCh d₁ = digitCh d₂ → d₁ = d₂ := by
  decide

theorem natStr_digits (n : ℕ) : ∀ c ∈ natStr n, c.isDigit = true := by
  intro c hc
  rw [natStr] at hc
  by_cases h0 : n = 0
  · rw [if_pos h0] at hc
    simp at hc
    subst hc
    decide
  · rw [if_neg h0] at hc
    rw [List.mem_reverse] at hc
    obtain ⟨d, hd, rfl⟩ := List.mem_map.mp hc
    exact digitCh_isDigit (Nat.digits_lt_base (by norm_num) hd)

theorem natStr_ne_nil (n : ℕ) : natStr n ≠ [] := by
  rw [natStr]
  by_cases h0 : n = 0
  · rw [if_pos h0]; simp
  · rw [if_neg h0]
    simp [Nat.digits_ne_nil_iff_ne_zero.mpr h0]

theorem map_digitCh_inj :
    ∀ (l₁ l₂ : List ℕ), (∀ d ∈ l₁, d < 10) → (∀ d ∈ l₂, d < 10) →
      l₁.map digitCh = l₂.map digitCh → l₁ = l₂ := by
  intro l₁
  induction l₁ with
  | nil =>
    intro l₂ _ _ h
    cases l₂ with
    | nil => rfl
    | cons b u => simp at h
  | cons a t ih =>
    intro l₂ h1 h2 h
    cases l₂ with
    | nil => simp at h
    | cons b u =>
      simp only [List.map_cons, List.cons.injEq] at h
      have hab : a = b :=
        digitCh_inj_lt a (h1 a (by simp)) b (h2 b (by simp)) h.1
      rw [hab, ih u (fun d hd => h1 d (by simp [hd])) (fun d hd => h2 d (by simp [hd])) h.2]

theorem natStr_inj {n₁ n₂ : ℕ} (h : natStr n₁ = natStr n₂) : n₁ = n₂ := by
  have key : ∀ m : ℕ, m ≠ 0 → natStr m ≠ ['0'] := by
    intro m hm hcon
    rw [natStr, if_neg hm] at hcon
    have h1 : (Nat.digits 10 m).map digitCh = ['0'] := by
      have := congrArg List.reverse hcon
      simpa using this
    have h2 : Nat.digits 10 m = [0] := by
      apply map_digitCh_inj _ [0]
        (fun d hd => Nat.digits_lt_base (by norm_num) hd) (by simp)
      simpa [digitCh] using h1
    have := Nat.ofDigits_digits 10 m
    rw [h2] at this
    simp [Nat.ofDigits] at this
    exact hm this.symm
  by_cases h1 : n₁ = 0 <;> by_cases h2 : n₂ = 0
  · rw [h1, h2]
  · exfalso
    rw [natStr, if_pos h1] at h
    exact key n₂ h2 h.symm
  · exfalso
    rw [natStr, natStr, if_neg h1, if_pos h2] at h
    apply key n₁ h1
    rw [natStr, if_neg h1]
    exact h
  · rw [natStr, if_neg h1, natStr, if_neg h2] at h
    have hmap : (Nat.digits 10 n₁).map digitCh = (Nat.digits 10 n₂).map digitCh :=
      List.reverse_injective h
    have hdig : Nat.digits 10 n₁ = Nat.digits 10 n₂ :=
      map_digitCh_inj _ _ (fun d hd => Nat.digits_lt_base (by norm_num) hd)
        (fun d hd => Nat.digits_lt_base (by norm_num) hd) hmap
    have e1 := Nat.ofDigits_digits 10 n₁
    rw [hdig, Nat.ofDigits_digits 10 n₂] at e1
    exact e1.symm

theorem intStr_chars (n : ℤ) : ∀ c ∈ intStr n, c.isDigit = true ∨ c = '-' := by
  intro c hc
  rw [intStr] at hc
  by_cases hn : n < 0
  · rw [if_pos hn] at hc
    rcases List.mem_cons.mp hc with h | h
    · exact Or.inr h
    · exact Or.inl (natStr_digits _ c h)
  · rw [if_neg hn] at hc
    exact Or.inl (natStr_digits _ c hc)

theorem intStr_inj {n₁ n₂ : ℤ} (h : intStr n₁ = intStr n₂) : n₁ = n₂ := by
  rw [intStr, intStr] at h
  by_cases h1 : n₁ < 0 <;> by_cases h2 : n₂ < 0
  · rw [if_pos h1, if_pos h2] at h
    simp only [List.cons.injEq, true_and] at h
    have := natStr_inj h
    omega
  · exfalso
    rw [if_pos h1, if_neg h2] at h
    have : '-' ∈ natStr n₂.toNat := h ▸ List.mem_cons_self '-' _
    exact absurd (natStr_digits _ '-' this) (by decide)
  · exfalso
    rw [if_neg h1, if_pos h2] at h
    have : '-' ∈ natStr n₁.toNat := h.symm ▸ List.mem_cons_self '-' _
    exact absurd (natStr_digits _ '-' this) (by decide)
  · rw [if_neg h1, if_neg h2] at h
    have := natStr_inj h
    omega

theorem bar_not_mem_idStr (i : Option ℤ) : '|' ∉ idStr i := by
  cases i with
  | none => decide
  | some n =>
    intro hc
    rcases intStr_chars n '|' hc with h | h
    · exact absurd h (by decide)
    · exact absurd h (by decide)

theorem idStr_inj : ∀ i₁ i₂ : Option ℤ, idStr i₁ = idStr i₂ → i₁ = i₂ := by
  intro i₁ i₂ h
  cases i₁ with
  | none =>
    cases i₂ with
    | none => rfl
    | some n =>
      exfalso
      have hN : 'N' ∈ intStr n := by
        rw [idStr, idStr] at h
        exact h ▸ List.mem_cons_self 'N' _
      rcases intStr_chars n 'N' hN with hd | hd
      · exact absurd hd (by decide)
      · exact absurd hd (by decide)
  | some n =>
    cases i₂ with
    | none =>
      exfalso
      have hN : 'N' ∈ intStr n := by
        rw [idStr, idStr] at h
        exact h.symm ▸ List.mem_cons_self 'N' _
      rcases intStr_chars n 'N' hN with hd | hd
      · exact absurd hd (by decide)
      · exact absurd hd (by decide)
    | some m =>
      rw [idStr, idStr] at h
      rw [intStr_inj h]

theorem append_cons_eq_of_not_mem {c : Char} :
    ∀ (x₁ : List Char) {x₂ y₁ y₂ : List Char}, c ∉ x₁ → c ∉ x₂ →
      x₁ ++ c :: y₁ = x₂ ++ c :: y₂ → x₁ = x₂ ∧ y₁ = y₂ := by
  intro x₁
  induction x₁ with
  | nil =>
    intro x₂ y₁ y₂ _ h2 he
    cases x₂ with
    | nil =>
      simp only [List.nil_append, List.cons.injEq, true_and] at he
      exact ⟨rfl, he⟩
    | cons b u =>
      exfalso
      simp only [List.nil_append, List.cons_append, List.cons.injEq] at he
      exact h2 (he.1 ▸ List.mem_cons_self b u)
  | cons a t ih =>
    intro x₂ y₁ y₂ h1 h2 he
    cases x₂ with
    | nil =>
      exfalso
      simp only [List.cons_append, List.nil_append, List.cons.injEq] at he
      exact h1 (he.1 ▸ List.mem_cons_self a t)
    | cons b u =>
      simp only [List.cons_append, List.cons.injEq] at he
      obtain ⟨htu, hy⟩ := ih (fun hm => h1 (by simp [hm])) (fun hm => h2 (by simp [hm])) he.2
      exact ⟨by rw [he.1, htu], hy⟩

theorem cacheKey_data (t : String) (i : Option ℤ) :
    (cacheKey t i).data = t.data ++ '|' :: idStr i := by
  rw [cacheKey, String.data_append, String.data_append]
  rw [show ("|" : String).data = ['|'] from rfl]
  simp

/-! ## Claim C10 -/

/-- C10: the string form of an optional identifier never contains the `|`
separator, so the composite cache key `"{title}|{id}"` is injective — two
distinct `(title, optional id)` pairs never collide in the cache. -/
theorem c10_cache_key :
    (∀ i : Option ℤ, '|' ∉ idStr i) ∧
      ∀ (t₁ t₂ : String) (i₁ i₂ : Option ℤ),
        cacheKey t₁ i₁ = cacheKey t₂ i₂ → t₁ = t₂ ∧ i₁ = i₂ := by
  refine ⟨bar_not_mem_idStr, ?_⟩
  intro t₁ t₂ i₁ i₂ h
  have hd := congrArg String.data h
  rw [cacheKey_data, cacheKey_data] at hd
  have hr : (idStr i₁).reverse ++ '|' :: t₁.data.reverse =
      (idStr i₂).reverse ++ '|' :: t₂.data.reverse := by
    have := congrArg List.reverse hd
    simpa [List.reverse_append] using this
  obtain ⟨hs, ht⟩ := append_cons_eq_of_not_mem _
    (fun hm => bar_not_mem_idStr i₁ (List.mem_reverse.mp hm))
    (fun hm => bar_not_mem_idStr i₂ (List.mem_reverse.mp hm)) hr
  constructor
  · exact String.ext_iff.mpr (List.reverse_injective ht)
  · exact idStr_inj _ _ (List.reverse_injective hs)

/-- C10 witness: the injectivity applied at a concrete key equality. -/
theorem c10_cache_key_witness :
    ("a" : String) = "a" ∧ (some 1 : Option ℤ) = some 1 :=
  c10_cache_key.2 "a" "a" (some 1) (some 1) rfl

end STN
